import Mathlib

/-!
Shallow embedding of the session-and-overlap inference engine of
`fortnite-tracker-robusto` (`src/index.js`), together with proofs of the
spec's claims about it.

Conventions of the embedding:
* UTC instants (ISO strings in the source) are integer milliseconds since
  epoch (`Int`).
* Luxon's `diff(..., 'minutes').minutes` yields the exact millisecond
  difference divided by 60000; it is modelled as an exact rational (`ℚ`),
  per the spec's "no floating point in interval arithmetic".
* Nullable values become `Option`.
* `Array.prototype.sort` with a comparator is a stable sort w.r.t. the total
  preorder induced by the comparator; any stable sort computes the same list,
  so it is modelled by insertion sort (`List.insertionSort`), which is stable.
* A JS `Set` (insertion-ordered, duplicate-free) is a duplicate-free list:
  `add` appends when absent, `delete` removes, `Array.from` is the identity.
-/

namespace Tracker

/-- `INACTIVITY_MINUTES = 30` from the config block of `index.js`. -/
def INACTIVITY_MINUTES : ℚ := 30

/-- A play session `{ start: ISO, end: ISO|null }`. -/
structure Session where
  start : Int
  «end» : Option Int
deriving DecidableEq

/-- Per-player state owned by the store: `{ name, url, lastMatchId, lastMatchAt, sessions }`. -/
structure Player where
  name : String
  url : String
  lastMatchId : Option String
  lastMatchAt : Option Int
  sessions : List Session
deriving DecidableEq

/-- `minutesBetween(aISO, bISO)`: absolute difference in minutes between two
instants, `null` when either is missing (`Math.abs(b.diff(a,'minutes').minutes)`). -/
def minutesBetween (a b : Option Int) : Option ℚ :=
  match a, b with
  | some x, some y => some (|((y : ℚ) - (x : ℚ))| / 60000)
  | _, _ => none

/-- `isPlayingNow(p)`: `lastMatchAt` present and within the inactivity window
of the current instant (`mins !== null && mins <= INACTIVITY_MINUTES`). -/
def isPlayingNow (now : Int) (p : Player) : Bool :=
  match p.lastMatchAt with
  | none => false
  | some _ =>
    match minutesBetween p.lastMatchAt (some now) with
    | none => false
    | some mins => decide (mins ≤ INACTIVITY_MINUTES)

/-- `ensureSessionOnNewMatch`: if there is no session or the last one is
closed, append a fresh open session starting at the observed instant;
if a session is already open, do nothing. -/
def ensureSessionOnNewMatch (sessions : List Session) (matchAt : Int) : List Session :=
  match sessions.getLast? with
  | none => sessions ++ [{ start := matchAt, «end» := none }]
  | some last =>
    if last.«end».isSome then sessions ++ [{ start := matchAt, «end» := none }]
    else sessions

/-- The per-player body of `scanAll` for a successful observation
`(matchId, t)`: save only when the match is new (`info.matchId !== prevId`);
then update `lastMatchId`/`lastMatchAt` and run `ensureSessionOnNewMatch`. -/
def processObservation (p : Player) (matchId : String) (t : Int) : Player :=
  if p.lastMatchId = some matchId then p
  else
    { p with
      lastMatchId := some matchId,
      lastMatchAt := some t,
      sessions := ensureSessionOnNewMatch p.sessions t }

/-- The per-player body of `closeInactiveSessions` at instant `now`:
skip when no session is open; close at `now` when `lastMatchAt` is missing;
otherwise close at `lastMatchAt` when the elapsed minutes exceed the window. -/
def closeInactivePlayer (now : Int) (p : Player) : Player :=
  match p.sessions.getLast? with
  | none => p
  | some last =>
    if last.«end».isSome then p
    else
      match p.lastMatchAt with
      | none =>
        { p with sessions := p.sessions.dropLast ++ [{ last with «end» := some now }] }
      | some lastAt =>
        match minutesBetween (some lastAt) (some now) with
        | none => p
        | some mins =>
          if INACTIVITY_MINUTES < mins then
            { p with sessions := p.sessions.dropLast ++ [{ last with «end» := some lastAt }] }
          else p

/-- `closeInactiveSessions`: the inactivity sweep over every player of the store. -/
def closeInactiveSessions (now : Int) (players : List Player) : List Player :=
  players.map (closeInactivePlayer now)

/-- A sweep-line event `{ t, type: ±1, who }`. -/
structure Event where
  t : Int
  type : Int
  who : String
deriving DecidableEq

/-- The events a single session contributes in `computeOverlaps`: a closed
session contributes `[start,+1]` and `[end,-1]`; an open session contributes
`[start,+1]` and `[now,-1]` when its player is playing now, nothing otherwise. -/
def sessionEvents (now : Int) (p : Player) (s : Session) : List Event :=
  match s.«end» with
  | some e => [{ t := s.start, type := 1, who := p.name }, { t := e, type := -1, who := p.name }]
  | none =>
    if isPlayingNow now p then
      [{ t := s.start, type := 1, who := p.name }, { t := now, type := -1, who := p.name }]
    else []

/-- The full event list built by `computeOverlaps`, in construction order. -/
def eventsOf (players : List Player) (now : Int) : List Event :=
  players.flatMap (fun p => p.sessions.flatMap (sessionEvents now p))

/-- The total preorder of the comparator
`(a, b) => a.t === b.t ? (a.type - b.type) : (a.t - b.t)`:
instants ascending, and at equal instants `-1` (close) before `+1` (open). -/
def evLE (a b : Event) : Prop :=
  a.t < b.t ∨ (a.t = b.t ∧ a.type ≤ b.type)

instance : DecidableRel evLE := fun a b => by
  unfold evLE
  infer_instance

instance evLE_total : IsTotal Event evLE := by
  constructor
  intro a b
  unfold evLE
  omega

instance evLE_trans : IsTrans Event evLE := by
  constructor
  intro a b c
  unfold evLE
  omega

/-- `events.sort(comparator)`: a stable sort w.r.t. `evLE`. -/
def sortEvents (evs : List Event) : List Event :=
  evs.insertionSort evLE

/-- An emitted overlap interval `{ start, end, durationMs, players, count }`. -/
structure OverlapInterval where
  start : Int
  «end» : Int
  durationMs : Int
  players : List String
  count : Nat
deriving DecidableEq

/-- `active.add(who)`: append when absent (JS `Set` insertion order). -/
def addActive (active : List String) (who : String) : List String :=
  if who ∈ active then active else active ++ [who]

/-- The update of the active set by one event: `-1` deletes, `+1` adds. -/
def applyEv (active : List String) (ev : Event) : List String :=
  if ev.type = -1 then active.erase ev.who
  else if ev.type = 1 then addActive active ev.who
  else active

/-- The interval (if any) pushed while handling an event at instant `evT`:
requires a previous instant, an active set of size ≥ 2 and a positive gap. -/
def emitted (active : List String) (prevT : Option Int) (evT : Int) : List OverlapInterval :=
  match prevT with
  | none => []
  | some pt =>
    if 2 ≤ active.length ∧ pt < evT then
      [{ start := pt, «end» := evT, durationMs := evT - pt,
         players := active, count := active.length }]
    else []

/-- The sweep loop of `computeOverlaps` over the sorted events. -/
def sweep (active : List String) (prevT : Option Int) : List Event → List OverlapInterval
  | [] => []
  | ev :: rest => emitted active prevT ev.t ++ sweep (applyEv active ev) (some ev.t) rest

/-- All intervals produced by the sweep (before the `slice(-100)` trim). -/
def overlapIntervalsFull (players : List Player) (now : Int) : List OverlapInterval :=
  sweep [] none (sortEvents (eventsOf players now))

/-- One step of the summary loop: `count === 2`, `else count === 3`,
`else count >= 4` accumulate into the three buckets. -/
def tally (acc : Int × Int × Int) (seg : OverlapInterval) : Int × Int × Int :=
  if seg.count = 2 then (acc.1 + seg.durationMs, acc.2.1, acc.2.2)
  else if seg.count = 3 then (acc.1, acc.2.1 + seg.durationMs, acc.2.2)
  else if 4 ≤ seg.count then (acc.1, acc.2.1, acc.2.2 + seg.durationMs)
  else acc

/-- `{ exactly2Ms, exactly3Ms, exactly4Ms, twoOrMoreMs }`. -/
structure OverlapSummary where
  exactly2Ms : Int
  exactly3Ms : Int
  exactly4Ms : Int
  twoOrMoreMs : Int
deriving DecidableEq

/-- The value returned by `computeOverlaps`. -/
structure OverlapResult where
  summary : OverlapSummary
  intervals : List OverlapInterval
deriving DecidableEq

/-- `computeOverlaps()`: sweep, summary over all intervals, and the
`slice(-100)` trim of the returned interval list. -/
def computeOverlaps (players : List Player) (now : Int) : OverlapResult :=
  let intervals := overlapIntervalsFull players now
  let acc := intervals.foldl tally (0, 0, 0)
  { summary :=
      { exactly2Ms := acc.1, exactly3Ms := acc.2.1, exactly4Ms := acc.2.2,
        twoOrMoreMs := acc.1 + acc.2.1 + acc.2.2 },
    intervals := intervals.drop (intervals.length - 100) }

/-- A fresh player entry as built by `defaultState` / `loadState`. -/
def defaultPlayer (name url : String) : Player :=
  { name := name, url := url, lastMatchId := none, lastMatchAt := none, sessions := [] }

/-- The persisted state `{ players, latestMatch, createdAt }`; `latestMatch`
is `(player, matchId, at)`. -/
structure TrackerState where
  players : List Player
  latestMatch : Option (String × String × Int)
  createdAt : Int
deriving DecidableEq

/-- `defaultState()` for a configured roster of `(name, url)` pairs. -/
def defaultState (roster : List (String × String)) (now : Int) : TrackerState :=
  { players := roster.map (fun nu => defaultPlayer nu.1 nu.2),
    latestMatch := none, createdAt := now }

/-- One iteration of the roster-merge loop of `loadState`: add a default entry
for a missing player, otherwise refresh the stored player's `url` from config. -/
def mergeRosterEntry (ps : List Player) (nu : String × String) : List Player :=
  match ps.find? (fun q => q.name == nu.1) with
  | none => ps ++ [defaultPlayer nu.1 nu.2]
  | some _ => ps.map (fun q => if q.name == nu.1 then { q with url := nu.2 } else q)

/-- `loadState()`: parse the stored state if present and merge it against the
configured roster; fall back to `defaultState()` otherwise. -/
def loadStateFrom (roster : List (String × String)) (now : Int)
    (stored : Option TrackerState) : TrackerState :=
  match stored with
  | none => defaultState roster now
  | some st => { st with players := roster.foldl mergeRosterEntry st.players }

/-- `saveState()` writes `JSON.stringify(state)` to disk. On this data
(strings, nullables, arrays, plain objects) the JSON round-trip is the
identity, so the stored value is the state itself. -/
def saveState (s : TrackerState) : TrackerState := s

/-- The per-player states reachable by the store's mutation operations,
starting from a fresh entry. -/
inductive Reach : Player → Prop
  | init (name url : String) : Reach (defaultPlayer name url)
  | observe {p : Player} (matchId : String) (t : Int) :
      Reach p → Reach (processObservation p matchId t)
  | close {p : Player} (now : Int) :
      Reach p → Reach (closeInactivePlayer now p)

/-- Reachability restricted to monotone observation feeds: every processed
observation's instant is at least the player's current `lastMatchAt`. -/
inductive ReachM : Player → Prop
  | init (name url : String) : ReachM (defaultPlayer name url)
  | observe {p : Player} (matchId : String) (t : Int) :
      ReachM p → (∀ L, p.lastMatchAt = some L → L ≤ t) →
      ReachM (processObservation p matchId t)
  | close {p : Player} (now : Int) :
      ReachM p → ReachM (closeInactivePlayer now p)

/-! ### Helper lemmas: integer characterizations of the minute arithmetic -/

lemma minutes_le_iff (x y : Int) :
    (|((y : ℚ) - (x : ℚ))| / 60000 ≤ INACTIVITY_MINUTES) ↔ |y - x| ≤ 1800000 := by
  simp only [INACTIVITY_MINUTES]
  rw [div_le_iff₀ (by norm_num : (0:ℚ) < 60000)]
  rw [show ((30:ℚ) * 60000) = ((1800000 : Int) : ℚ) by norm_num]
  rw [← Int.cast_sub, ← Int.cast_abs, Int.cast_le]

lemma minutes_lt_iff (x y : Int) :
    (INACTIVITY_MINUTES < |((y : ℚ) - (x : ℚ))| / 60000) ↔ 1800000 < |y - x| := by
  simp only [INACTIVITY_MINUTES]
  rw [lt_div_iff₀ (by norm_num : (0:ℚ) < 60000)]
  rw [show ((30:ℚ) * 60000) = ((1800000 : Int) : ℚ) by norm_num]
  rw [← Int.cast_sub, ← Int.cast_abs, Int.cast_lt]

/-- `isPlayingNow` in integer milliseconds: within 1800000 ms of `now`,
in absolute value. -/
lemma isPlayingNow_eq (now : Int) (p : Player) :
    isPlayingNow now p =
      match p.lastMatchAt with
      | none => false
      | some T => decide (|now - T| ≤ 1800000) := by
  cases h : p.lastMatchAt with
  | none => simp [isPlayingNow, h]
  | some T =>
    simp only [isPlayingNow, h, minutesBetween]
    rw [decide_eq_decide]
    exact minutes_le_iff T now

/-- `closeInactivePlayer` in integer milliseconds. -/
lemma closeInactivePlayer_eq (now : Int) (p : Player) :
    closeInactivePlayer now p =
      match p.sessions.getLast? with
      | none => p
      | some last =>
        if last.«end».isSome then p
        else
          match p.lastMatchAt with
          | none =>
            { p with sessions := p.sessions.dropLast ++ [{ last with «end» := some now }] }
          | some lastAt =>
            if 1800000 < |now - lastAt| then
              { p with sessions := p.sessions.dropLast ++ [{ last with «end» := some lastAt }] }
            else p := by
  unfold closeInactivePlayer
  cases p.sessions.getLast? with
  | none => rfl
  | some last =>
    simp only
    split
    · rfl
    · cases p.lastMatchAt with
      | none => rfl
      | some lastAt =>
        simp only [minutesBetween]
        exact if_congr (minutes_lt_iff lastAt now) rfl rfl

/-- The inactivity sweep never touches `lastMatchId`/`lastMatchAt`. -/
lemma closeInactivePlayer_lastMatchAt (now : Int) (p : Player) :
    (closeInactivePlayer now p).lastMatchAt = p.lastMatchAt := by
  unfold closeInactivePlayer
  cases p.sessions.getLast? with
  | none => rfl
  | some last =>
    simp only
    split
    · rfl
    · cases hA : p.lastMatchAt with
      | none => rfl
      | some lastAt =>
        simp only [minutesBetween]
        split
        · rfl
        · exact hA

/-! ### C6: duplicate matchId is a no-op -/

/-- C6: processing an observation whose `matchId` equals the player's stored
`lastMatchId` leaves the player's state entirely unchanged. -/
theorem C6_duplicate_match_noop (p : Player) (matchId : String) (t : Int)
    (h : p.lastMatchId = some matchId) :
    processObservation p matchId t = p := by
  unfold processObservation
  rw [if_pos h]

/-- Witness for C6 at a concrete player already holding `matchId = "m1"`. -/
theorem C6_duplicate_match_noop_witness :
    (⟨"A", "u", some "m1", some 5, [⟨5, none⟩]⟩ : Player).lastMatchId = some "m1" ∧
    processObservation ⟨"A", "u", some "m1", some 5, [⟨5, none⟩]⟩ "m1" 99 =
      ⟨"A", "u", some "m1", some 5, [⟨5, none⟩]⟩ :=
  ⟨rfl, C6_duplicate_match_noop ⟨"A", "u", some "m1", some 5, [⟨5, none⟩]⟩ "m1" 99 rfl⟩

/-! ### C3: inactivity closes at the last real activity instant -/

/-- C3: if a player has an open session, `lastMatchAt = T`, and the sweep runs
at `now` with `now - T` strictly above the 30-minute window, the session is
closed with `end = T` (the last observation instant), not `now`. -/
theorem C3_close_at_last_activity (p : Player) (now T : Int) (last : Session)
    (hl : p.sessions.getLast? = some last) (ho : last.«end» = none)
    (hT : p.lastMatchAt = some T) (hgt : 1800000 < now - T) :
    closeInactivePlayer now p =
      { p with sessions := p.sessions.dropLast ++ [{ last with «end» := some T }] } := by
  rw [closeInactivePlayer_eq, hl]
  simp only [ho, Option.isSome_none, Bool.false_eq_true, if_false, hT]
  rw [if_pos (by rw [abs_of_pos (by omega : (0:Int) < now - T)]; omega)]

/-- Witness for C3: open session since 1000 ms, sweep at 2000000 ms. -/
theorem C3_close_at_last_activity_witness :
    (⟨"A", "u", some "m", some 1000, [⟨1000, none⟩]⟩ : Player).sessions.getLast? =
        some ⟨1000, none⟩ ∧
    (1800000 : Int) < 2000000 - 1000 ∧
    closeInactivePlayer 2000000 ⟨"A", "u", some "m", some 1000, [⟨1000, none⟩]⟩ =
      { (⟨"A", "u", some "m", some 1000, [⟨1000, none⟩]⟩ : Player) with
        sessions := (⟨"A", "u", some "m", some 1000, [⟨1000, none⟩]⟩ : Player).sessions.dropLast ++
          [{ (⟨1000, none⟩ : Session) with «end» := some 1000 }] } :=
  ⟨rfl, by decide,
    C3_close_at_last_activity ⟨"A", "u", some "m", some 1000, [⟨1000, none⟩]⟩ 2000000 1000
      ⟨1000, none⟩ rfl rfl rfl (by decide)⟩

/-! ### C7: the "playing now" predicate -/

/-- Counterexample to C7 as stated: for `lastMatchAt` one hour in the future of
`now`, the signed difference `now - lastMatchAt` is (vacuously) at most the
window, yet the code compares the absolute difference and returns `false`. -/
theorem C7_playing_now_cex :
    (⟨"A", "u", none, some 3600000, []⟩ : Player).lastMatchAt = some 3600000 ∧
    ((0 : Int) - 3600000 ≤ 1800000) ∧
    isPlayingNow 0 ⟨"A", "u", none, some 3600000, []⟩ = false := by
  refine ⟨rfl, by decide, ?_⟩
  rw [isPlayingNow_eq]
  decide

/-- C7 (amended): `isPlayingNow` is true iff `lastMatchAt` is present and the
absolute difference `|now - lastMatchAt|` is at most the inactivity window;
in particular it is false when `lastMatchAt` is null. -/
theorem C7_playing_now_amended (now : Int) (p : Player) :
    (isPlayingNow now p = true ↔ ∃ T, p.lastMatchAt = some T ∧ |now - T| ≤ 1800000) ∧
    (p.lastMatchAt = none → isPlayingNow now p = false) := by
  constructor
  · rw [isPlayingNow_eq]
    cases h : p.lastMatchAt with
    | none => simp
    | some T => simp
  · intro h
    rw [isPlayingNow_eq, h]

/-! ### C4: open sessions and the synthetic interval -/

/-- C4: an open session of a player who is not playing now contributes no
events to the sweep; for a player who is playing now it contributes exactly the
synthetic pair `[start, +1]`, `[now, -1]`. The synthetic end exists only in the
event list: `computeOverlaps` is a pure function of the store and returns only
`{ summary, intervals }`, so nothing is written back to the stored sessions. -/
theorem C4_open_session_events (now : Int) (p : Player) (s : Session)
    (h : s.«end» = none) :
    (isPlayingNow now p = false → sessionEvents now p s = []) ∧
    (isPlayingNow now p = true → sessionEvents now p s =
      [{ t := s.start, type := 1, who := p.name }, { t := now, type := -1, who := p.name }]) := by
  constructor <;> intro hp <;> simp [sessionEvents, h, hp]

/-- Witness for C4: a player with `lastMatchAt = null` is not playing now and
their open session contributes no events. -/
theorem C4_open_session_events_witness :
    ((⟨5, none⟩ : Session).«end» = none) ∧
    (isPlayingNow 0 ⟨"A", "u", none, none, [⟨5, none⟩]⟩ = false →
      sessionEvents 0 ⟨"A", "u", none, none, [⟨5, none⟩]⟩ ⟨5, none⟩ = []) :=
  ⟨rfl, (C4_open_session_events 0 ⟨"A", "u", none, none, [⟨5, none⟩]⟩ ⟨5, none⟩ rfl).1⟩

/-! ### C5: the summary is an exact aggregation of the full interval list -/

/-- The single-pass `if/else if` summary loop computes the bucketed sums. -/
lemma tally_foldl (l : List OverlapInterval) (acc : Int × Int × Int) :
    l.foldl tally acc =
      (acc.1 + ((l.filter fun iv => iv.count == 2).map fun iv => iv.durationMs).sum,
       acc.2.1 + ((l.filter fun iv => iv.count == 3).map fun iv => iv.durationMs).sum,
       acc.2.2 + ((l.filter fun iv => decide (4 ≤ iv.count)).map fun iv => iv.durationMs).sum) := by
  induction l generalizing acc with
  | nil => simp
  | cons hd tl ih =>
    by_cases h2 : hd.count = 2
    · simp [List.foldl_cons, List.filter_cons, tally, h2, ih, add_assoc]
    · by_cases h3 : hd.count = 3
      · simp [List.foldl_cons, List.filter_cons, tally, h2, h3, ih, add_assoc]
      · by_cases h4 : 4 ≤ hd.count
        · simp [List.foldl_cons, List.filter_cons, tally, h2, h3, h4, ih, add_assoc]
        · simp [List.foldl_cons, List.filter_cons, tally, h2, h3, h4, ih]

/-- C5: `exactly2Ms`/`exactly3Ms`/`exactly4Ms` are the sums of `durationMs`
over the emitted intervals with `count == 2`, `count == 3`, `count >= 4`;
`twoOrMoreMs` is their sum; and the summary is computed over the full interval
list even though only the last 100 intervals are returned. -/
theorem C5_summary_sums (players : List Player) (now : Int) :
    ((computeOverlaps players now).summary.exactly2Ms =
      (((overlapIntervalsFull players now).filter fun iv => iv.count == 2).map
        fun iv => iv.durationMs).sum) ∧
    ((computeOverlaps players now).summary.exactly3Ms =
      (((overlapIntervalsFull players now).filter fun iv => iv.count == 3).map
        fun iv => iv.durationMs).sum) ∧
    ((computeOverlaps players now).summary.exactly4Ms =
      (((overlapIntervalsFull players now).filter fun iv => decide (4 ≤ iv.count)).map
        fun iv => iv.durationMs).sum) ∧
    ((computeOverlaps players now).summary.twoOrMoreMs =
      (computeOverlaps players now).summary.exactly2Ms +
      (computeOverlaps players now).summary.exactly3Ms +
      (computeOverlaps players now).summary.exactly4Ms) ∧
    ((computeOverlaps players now).intervals =
      (overlapIntervalsFull players now).drop ((overlapIntervalsFull players now).length - 100)) := by
  simp [computeOverlaps, tally_foldl]

/-! ### C1: close-before-open tie-break at equal instants -/

/-- C1: the sorted event order processes, at equal instants, all `-1` (close)
events before `+1` (open) events; consequently a session of one player ending
at exactly the instant `T` at which a session of another player begins yields
no overlap interval at all — in particular no count-2 interval at `T`. -/
theorem C1_close_before_open_boundary :
    (∀ evs : List Event,
        (sortEvents evs).Pairwise (fun a b => a.t = b.t → a.type ≤ b.type)) ∧
    (∀ (A B : Player) (now s1 T e2 : Int),
        A.name ≠ B.name → s1 < T → T < e2 →
        A.sessions = [{ start := s1, «end» := some T }] →
        B.sessions = [{ start := T, «end» := some e2 }] →
        (computeOverlaps [A, B] now).intervals = []) := by
  constructor
  · intro evs
    have hs := List.sorted_insertionSort evLE evs
    exact List.Pairwise.imp
      (fun h heq => by
        rcases h with h | ⟨_, h2⟩
        · omega
        · exact h2) hs
  · intro A B now s1 T e2 hAB h1 h2 hA hB
    have e12 : evLE ⟨s1, 1, A.name⟩ ⟨T, -1, A.name⟩ := Or.inl h1
    have e23 : evLE ⟨T, -1, A.name⟩ ⟨T, 1, B.name⟩ :=
      Or.inr ⟨rfl, by show (-1 : Int) ≤ 1; decide⟩
    have e34 : evLE ⟨T, 1, B.name⟩ ⟨e2, -1, B.name⟩ := Or.inl h2
    simp [computeOverlaps, overlapIntervalsFull, eventsOf, hA, hB, sessionEvents,
      sortEvents, List.insertionSort, List.orderedInsert, e12, e23, e34,
      sweep, emitted, applyEv, addActive]

/-- Witness for C1 at the spec's boundary scenario (`10:00-10:20` and
`10:20-10:40`, scaled): no interval is emitted. -/
theorem C1_close_before_open_boundary_witness :
    ("A" : String) ≠ "B" ∧ ((0 : Int) < 10) ∧ ((10 : Int) < 20) ∧
    (computeOverlaps [⟨"A", "u", none, none, [⟨0, some 10⟩]⟩,
        ⟨"B", "u", none, none, [⟨10, some 20⟩]⟩] 0).intervals = [] :=
  ⟨by decide, by decide, by decide,
    C1_close_before_open_boundary.2 ⟨"A", "u", none, none, [⟨0, some 10⟩]⟩
      ⟨"B", "u", none, none, [⟨10, some 20⟩]⟩ 0 0 10 20
      (by decide) (by decide) (by decide) rfl rfl⟩

/-! ### C8 and C10: shape and ordering of emitted intervals -/

/-- Membership in the per-event emission: an interval is pushed only with a
previous instant, an active set of size at least 2 and a positive gap, and it
is exactly the record built from them. -/
lemma mem_emitted {active : List String} {prevT : Option Int} {evT : Int}
    {iv : OverlapInterval} (h : iv ∈ emitted active prevT evT) :
    ∃ pt, prevT = some pt ∧ 2 ≤ active.length ∧ pt < evT ∧
      iv = { start := pt, «end» := evT, durationMs := evT - pt,
             players := active, count := active.length } := by
  cases prevT with
  | none => simp [emitted] at h
  | some pt =>
    simp only [emitted] at h
    by_cases hcond : 2 ≤ active.length ∧ pt < evT
    · rw [if_pos hcond] at h
      exact ⟨pt, rfl, hcond.1, hcond.2, by simpa using h⟩
    · rw [if_neg hcond] at h
      simp at h

lemma addActive_nodup {active : List String} {who : String} (h : active.Nodup) :
    (addActive active who).Nodup := by
  by_cases hmem : who ∈ active
  · simp [addActive, hmem, h]
  · simp [addActive, hmem, List.nodup_append, h]

lemma applyEv_nodup {active : List String} {ev : Event} (h : active.Nodup) :
    (applyEv active ev).Nodup := by
  unfold applyEv
  split
  · exact h.erase _
  · split
    · exact addActive_nodup h
    · exact h

/-- Sweep invariant for C8: starting from a duplicate-free active set, every
produced interval has `count = |players|`, duplicate-free participants,
`count ≥ 2`, `durationMs = end - start` and positive length. -/
lemma sweep_facts : ∀ (evs : List Event) (active : List String) (prevT : Option Int),
    active.Nodup → ∀ iv ∈ sweep active prevT evs,
      iv.count = iv.players.length ∧ iv.players.Nodup ∧ 2 ≤ iv.count ∧
      iv.durationMs = iv.«end» - iv.start ∧ iv.start < iv.«end» := by
  intro evs
  induction evs with
  | nil =>
    intro active prevT _ iv hiv
    simp [sweep] at hiv
  | cons ev rest ih =>
    intro active prevT h iv hiv
    rw [sweep] at hiv
    rcases List.mem_append.mp hiv with hm | hm
    · obtain ⟨pt, _, hlen, hlt, heq⟩ := mem_emitted hm
      subst heq
      exact ⟨rfl, h, hlen, rfl, hlt⟩
    · exact ih (applyEv active ev) (some ev.t) (applyEv_nodup h) iv hm

/-- C8: every interval returned by `computeOverlaps` satisfies
`count == |participants| >= 2` and `durationMs == end - start > 0`;
zero-length gaps emit nothing. -/
theorem C8_interval_wellformed (players : List Player) (now : Int)
    (iv : OverlapInterval) (h : iv ∈ (computeOverlaps players now).intervals) :
    iv.count = iv.players.length ∧ iv.players.Nodup ∧ 2 ≤ iv.count ∧
    iv.durationMs = iv.«end» - iv.start ∧ 0 < iv.durationMs := by
  have hfull : iv ∈ overlapIntervalsFull players now := by
    simp only [computeOverlaps] at h
    exact List.mem_of_mem_drop h
  obtain ⟨h1, h2, h3, h4, h5⟩ :=
    sweep_facts (sortEvents (eventsOf players now)) [] none List.nodup_nil iv hfull
  exact ⟨h1, h2, h3, h4, by omega⟩

/-- Witness for C8 on the spec's `10:00-10:30` / `10:15-10:45` scenario (scaled
instants), whose sweep emits the count-2 interval `[10, 30]`. -/
theorem C8_interval_wellformed_witness :
    ((⟨10, 30, 20, ["A", "B"], 2⟩ : OverlapInterval) ∈
      (computeOverlaps [⟨"A", "u", none, none, [⟨0, some 30⟩]⟩,
          ⟨"B", "u", none, none, [⟨10, some 40⟩]⟩] 0).intervals) ∧
    ((2 : Nat) = (["A", "B"] : List String).length ∧ (["A", "B"] : List String).Nodup ∧
      (2 : Nat) ≤ 2 ∧ (20 : Int) = 30 - 10 ∧ (0 : Int) < 20) :=
  ⟨by decide,
    C8_interval_wellformed [⟨"A", "u", none, none, [⟨0, some 30⟩]⟩,
      ⟨"B", "u", none, none, [⟨10, some 40⟩]⟩] 0 ⟨10, 30, 20, ["A", "B"], 2⟩ (by decide)⟩

/-- Sweep invariant for C10: over events with non-decreasing instants, all of
them at or after the previous instant, the produced intervals are
chronologically ordered end-to-start, and all start at or after `pt`. -/
lemma sweep_ordered : ∀ (evs : List Event) (active : List String) (pt : Int),
    evs.Pairwise (fun a b => a.t ≤ b.t) → (∀ e ∈ evs, pt ≤ e.t) →
    (sweep active (some pt) evs).Pairwise (fun a b => a.«end» ≤ b.start) ∧
    ∀ iv ∈ sweep active (some pt) evs, pt ≤ iv.start := by
  intro evs
  induction evs with
  | nil =>
    intro active pt _ _
    refine ⟨by simp [sweep], ?_⟩
    intro iv hiv
    simp [sweep] at hiv
  | cons ev rest ih =>
    intro active pt hp hlb
    obtain ⟨hhead, hrest⟩ := List.pairwise_cons.mp hp
    have hIH := ih (applyEv active ev) ev.t hrest hhead
    have hptev : pt ≤ ev.t := hlb ev (List.mem_cons_self ev rest)
    constructor
    · rw [sweep, List.pairwise_append]
      refine ⟨?_, hIH.1, ?_⟩
      · cases hpt' : emitted active (some pt) ev.t with
        | nil => exact List.Pairwise.nil
        | cons x xs =>
          obtain ⟨pt', heq', hlen, hlt, hx⟩ := mem_emitted (hpt' ▸ List.mem_cons_self x xs)
          have hxs : xs = [] := by
            have := hpt'
            simp only [emitted] at this
            rw [if_pos] at this
            · exact (List.cons.injEq _ _ _ _ ▸ this.symm).2.symm ▸ rfl
            · injection heq' with hh
              subst hh
              exact ⟨hlen, hlt⟩
          subst hxs
          exact List.pairwise_singleton _ x
      · intro a ha b hb
        obtain ⟨pt', heq', _, _, haeq⟩ := mem_emitted ha
        injection heq' with hh
        subst hh
        subst haeq
        exact hIH.2 b hb
    · intro iv hiv
      rw [sweep] at hiv
      rcases List.mem_append.mp hiv with hm | hm
      · obtain ⟨pt', heq', _, _, heq⟩ := mem_emitted hm
        injection heq' with hh
        subst hh
        subst heq
        exact le_refl _
      · exact le_trans hptev (hIH.2 iv hm)

/-- C10: the interval list returned by `computeOverlaps` is chronologically
ordered and pairwise non-overlapping: every interval starts no earlier than
every earlier interval's end. -/
theorem C10_intervals_ordered (players : List Player) (now : Int) :
    ((computeOverlaps players now).intervals).Pairwise
      (fun a b => a.«end» ≤ b.start) := by
  have hfull : (overlapIntervalsFull players now).Pairwise
      (fun a b => a.«end» ≤ b.start) := by
    unfold overlapIntervalsFull
    have hsorted : (sortEvents (eventsOf players now)).Pairwise
        (fun a b : Event => a.t ≤ b.t) :=
      List.Pairwise.imp (fun h => by rcases h with h | ⟨h, _⟩ <;> omega)
        (List.sorted_insertionSort evLE (eventsOf players now))
    cases hE : sortEvents (eventsOf players now) with
    | nil => simp [sweep]
    | cons ev rest =>
      rw [hE] at hsorted
      obtain ⟨hhead, hrest⟩ := List.pairwise_cons.mp hsorted
      rw [sweep]
      simp only [emitted, List.nil_append]
      exact (sweep_ordered rest (applyEv [] ev) ev.t hrest hhead).1
  simp only [computeOverlaps]
  exact hfull.sublist (List.drop_sublist _ _)

/-! ### C2: the per-player session-log invariant -/

/-- Lower bound of a session start by the previous session's end, if any. -/
def lbOK : Option Int → Int → Prop
  | none, _ => True
  | some e, s => e ≤ s

/-- Well-formedness of a session log w.r.t. the player's `lastMatchAt`:
starts are bounded below by the previous end, closed sessions satisfy
`start ≤ end`, the final closed end is at most `lastMatchAt`, and an open
session can only be the last element, with `start ≤ lastMatchAt`. -/
def WF (lastAt : Option Int) : Option Int → List Session → Prop
  | _, [] => True
  | lb, sess :: rest =>
    lbOK lb sess.start ∧
    (match sess.«end» with
     | some e => sess.start ≤ e ∧ (rest = [] → ∃ L, lastAt = some L ∧ e ≤ L) ∧
         WF lastAt (some e) rest
     | none => rest = [] ∧ ∃ L, lastAt = some L ∧ sess.start ≤ L)

lemma WF_none_nil : ∀ (lb : Option Int) (ss : List Session), WF none lb ss → ss = [] := by
  intro lb ss
  induction ss generalizing lb with
  | nil => intro _; rfl
  | cons sess rest ih =>
    intro h
    simp only [WF] at h
    obtain ⟨_, h2⟩ := h
    cases he : sess.«end» with
    | none =>
      simp only [he] at h2
      obtain ⟨_, L, hL, _⟩ := h2
      simp at hL
    | some e =>
      simp only [he] at h2
      obtain ⟨_, himp, hrest⟩ := h2
      obtain ⟨L, hL, _⟩ := himp (ih (some e) hrest)
      simp at hL

lemma WF_mono : ∀ (ss : List Session) (lb : Option Int) (L L' : Int),
    WF (some L) lb ss → L ≤ L' → WF (some L') lb ss := by
  intro ss
  induction ss with
  | nil =>
    intro lb L L' _ _
    simp only [WF]
  | cons sess rest ih =>
    intro lb L L' h hle
    simp only [WF] at h ⊢
    obtain ⟨hlb, h2⟩ := h
    refine ⟨hlb, ?_⟩
    cases he : sess.«end» with
    | some e =>
      simp only [he] at h2 ⊢
      obtain ⟨hse, himp, hrest⟩ := h2
      refine ⟨hse, ?_, ih (some e) L L' hrest hle⟩
      intro hnil
      obtain ⟨M, hM, heM⟩ := himp hnil
      injection hM with hM'
      subst hM'
      exact ⟨L', rfl, le_trans heM hle⟩
    | none =>
      simp only [he] at h2 ⊢
      obtain ⟨hnil, M, hM, hsM⟩ := h2
      injection hM with hM'
      subst hM'
      exact ⟨hnil, L', rfl, le_trans hsM hle⟩

lemma WF_raise : ∀ (ss : List Session) (lb lastAt : Option Int) (t : Int),
    WF lastAt lb ss → (∀ L, lastAt = some L → L ≤ t) → WF (some t) lb ss := by
  intro ss lb lastAt t h hmono
  cases lastAt with
  | none =>
    rw [WF_none_nil lb ss h]
    simp only [WF]
  | some L => exact WF_mono ss lb L t h (hmono L rfl)

lemma WF_all_closed : ∀ (ss : List Session) (lb lastAt : Option Int) (last : Session),
    WF lastAt lb ss → ss.getLast? = some last → last.«end».isSome →
    ∀ s ∈ ss, s.«end».isSome := by
  intro ss
  induction ss with
  | nil =>
    intro lb lastAt last _ _ _ s hs
    simp at hs
  | cons sess rest ih =>
    intro lb lastAt last h hg hc s hs
    simp only [WF] at h
    obtain ⟨_, h2⟩ := h
    cases rest with
    | nil =>
      have hlast : last = sess := by
        simp [List.getLast?] at hg
        exact hg.symm
      rcases List.mem_cons.mp hs with hs | hs
      · subst hs
        rw [← hlast]
        exact hc
      · simp at hs
    | cons r rs =>
      cases he : sess.«end» with
      | none =>
        simp only [he] at h2
        obtain ⟨hnil, _⟩ := h2
        simp at hnil
      | some e =>
        simp only [he] at h2
        obtain ⟨_, _, hrest⟩ := h2
        rcases List.mem_cons.mp hs with hs | hs
        · subst hs
          rw [he]
          rfl
        · have hg' : (r :: rs).getLast? = some last := by
            rwa [List.getLast?_cons_cons] at hg
          exact ih (some e) lastAt last hrest hg' hc s hs

lemma WF_append_open : ∀ (ss : List Session) (lb lastAt : Option Int) (t : Int),
    WF lastAt lb ss → (∀ s ∈ ss, s.«end».isSome) →
    (∀ L, lastAt = some L → L ≤ t) → (ss = [] → lbOK lb t) →
    WF (some t) lb (ss ++ [⟨t, none⟩]) := by
  intro ss
  induction ss with
  | nil =>
    intro lb lastAt t _ _ _ hlb
    simp only [List.nil_append, WF]
    refine ⟨hlb rfl, ?_⟩
    simp
  | cons sess rest ih =>
    intro lb lastAt t h hclosed hmono _
    simp only [WF] at h
    obtain ⟨hlb, h2⟩ := h
    have hcs : sess.«end».isSome := hclosed sess (List.mem_cons_self sess rest)
    cases he : sess.«end» with
    | none =>
      rw [he] at hcs
      simp at hcs
    | some e =>
      simp only [he] at h2
      obtain ⟨hse, himp, hrest⟩ := h2
      simp only [List.cons_append, WF, he]
      refine ⟨hlb, hse, ?_, ?_⟩
      · intro hn
        exact absurd hn (by simp)
      · apply ih (some e) lastAt t hrest
          (fun s hs => hclosed s (List.mem_cons_of_mem sess hs)) hmono
        intro hrestnil
        obtain ⟨L, hL, heL⟩ := himp hrestnil
        exact le_trans heL (hmono L hL)

lemma WF_close_last : ∀ (ss : List Session) (lb : Option Int) (L : Int) (last : Session),
    WF (some L) lb ss → ss.getLast? = some last → last.«end» = none →
    WF (some L) lb (ss.dropLast ++ [{ last with «end» := some L }]) := by
  intro ss
  induction ss with
  | nil =>
    intro lb L last _ hg _
    simp at hg
  | cons sess rest ih =>
    intro lb L last h hg ho
    simp only [WF] at h
    obtain ⟨hlb, h2⟩ := h
    cases rest with
    | nil =>
      have hlast : last = sess := by
        simp [List.getLast?] at hg
        exact hg.symm
      subst hlast
      simp only [ho] at h2
      obtain ⟨_, M, hM, hsM⟩ := h2
      injection hM with hM'
      subst hM'
      simp only [List.dropLast_single, List.nil_append, WF]
      exact ⟨hlb, hsM, fun _ => ⟨L, rfl, le_refl L⟩, trivial⟩
    | cons r rs =>
      cases he : sess.«end» with
      | none =>
        simp only [he] at h2
        obtain ⟨hnil, _⟩ := h2
        simp at hnil
      | some e =>
        simp only [he] at h2
        obtain ⟨hse, _, hrest⟩ := h2
        have hg' : (r :: rs).getLast? = some last := by
          rwa [List.getLast?_cons_cons] at hg
        rw [show (sess :: r :: rs).dropLast = sess :: (r :: rs).dropLast from rfl,
          List.cons_append]
        simp only [WF, he]
        exact ⟨hlb, hse, fun hn => absurd hn (by simp), ih (some e) L last hrest hg' ho⟩

lemma ensureSession_getLast_none {ss : List Session} {t : Int}
    (hg : ss.getLast? = none) :
    ensureSessionOnNewMatch ss t = ss ++ [⟨t, none⟩] := by
  simp [ensureSessionOnNewMatch, hg]

lemma ensureSession_last_closed {ss : List Session} {t : Int} {last : Session}
    (hg : ss.getLast? = some last) (hc : last.«end».isSome) :
    ensureSessionOnNewMatch ss t = ss ++ [⟨t, none⟩] := by
  simp [ensureSessionOnNewMatch, hg, hc]

lemma ensureSession_last_open {ss : List Session} {t : Int} {last : Session}
    (hg : ss.getLast? = some last) (ho : last.«end» = none) :
    ensureSessionOnNewMatch ss t = ss := by
  simp [ensureSessionOnNewMatch, hg, ho]

lemma close_noop_nil {now : Int} {p : Player} (hg : p.sessions.getLast? = none) :
    closeInactivePlayer now p = p := by
  simp [closeInactivePlayer_eq, hg]

lemma close_noop_closed {now : Int} {p : Player} {last : Session}
    (hg : p.sessions.getLast? = some last) (hc : last.«end».isSome) :
    closeInactivePlayer now p = p := by
  simp [closeInactivePlayer_eq, hg, hc]

lemma close_open_case {now : Int} {p : Player} {last : Session} {L : Int}
    (hg : p.sessions.getLast? = some last) (ho : last.«end» = none)
    (hA : p.lastMatchAt = some L) :
    closeInactivePlayer now p =
      if 1800000 < |now - L| then
        { p with sessions := p.sessions.dropLast ++ [{ last with «end» := some L }] }
      else p := by
  simp [closeInactivePlayer_eq, hg, ho, hA]

/-- `processObservation` preserves the invariant, provided the observation's
instant is at least the player's current `lastMatchAt`. -/
lemma WF_processObservation (p : Player) (m : String) (t : Int)
    (h : WF p.lastMatchAt none p.sessions)
    (hmono : ∀ L, p.lastMatchAt = some L → L ≤ t) :
    WF (processObservation p m t).lastMatchAt none (processObservation p m t).sessions := by
  unfold processObservation
  split
  · exact h
  · show WF (some t) none (ensureSessionOnNewMatch p.sessions t)
    cases hg : p.sessions.getLast? with
    | none =>
      have hnil : p.sessions = [] := by
        cases hss : p.sessions with
        | nil => rfl
        | cons a l =>
          rw [hss] at hg
          simp at hg
      rw [ensureSession_getLast_none hg]
      exact WF_append_open p.sessions none p.lastMatchAt t h
        (by rw [hnil]; simp) hmono (fun _ => trivial)
    | some last =>
      by_cases hc : last.«end».isSome
      · rw [ensureSession_last_closed hg hc]
        exact WF_append_open p.sessions none p.lastMatchAt t h
          (WF_all_closed p.sessions none p.lastMatchAt last h hg hc) hmono
          (fun _ => trivial)
      · have ho : last.«end» = none := by
          cases hoe : last.«end» with
          | none => rfl
          | some e =>
            rw [hoe] at hc
            simp at hc
        rw [ensureSession_last_open hg ho]
        exact WF_raise p.sessions none p.lastMatchAt t h hmono

/-- The inactivity sweep preserves the invariant at any instant. -/
lemma WF_closeInactivePlayer (now : Int) (p : Player)
    (h : WF p.lastMatchAt none p.sessions) :
    WF (closeInactivePlayer now p).lastMatchAt none (closeInactivePlayer now p).sessions := by
  cases hg : p.sessions.getLast? with
  | none =>
    rw [close_noop_nil hg]
    exact h
  | some last =>
    by_cases hc : last.«end».isSome
    · rw [close_noop_closed hg hc]
      exact h
    · have ho : last.«end» = none := by
        cases hoe : last.«end» with
        | none => rfl
        | some e =>
          rw [hoe] at hc
          simp at hc
      cases hA : p.lastMatchAt with
      | none =>
        rw [hA] at h
        rw [WF_none_nil none p.sessions h] at hg
        simp at hg
      | some L =>
        rw [close_open_case hg ho hA]
        rw [hA] at h
        by_cases hgt : 1800000 < |now - L|
        · rw [if_pos hgt]
          show WF p.lastMatchAt none (p.sessions.dropLast ++ [{ last with «end» := some L }])
          rw [hA]
          exact WF_close_last p.sessions none L last h hg ho
        · rw [if_neg hgt]
          show WF p.lastMatchAt none p.sessions
          rw [hA]
          exact h

/-- Every state reachable under a monotone observation feed satisfies the
session-log invariant. -/
lemma ReachM_WF {p : Player} (h : ReachM p) : WF p.lastMatchAt none p.sessions := by
  induction h with
  | init name url => simp only [defaultPlayer, WF]
  | observe matchId t hr hmono ih => exact WF_processObservation _ matchId t ih hmono
  | close now hr ih => exact WF_closeInactivePlayer now _ ih

lemma WF_lower : ∀ (ss : List Session) (lastAt : Option Int) (e : Int),
    WF lastAt (some e) ss → ∀ s ∈ ss, e ≤ s.start := by
  intro ss
  induction ss with
  | nil =>
    intro _ _ _ s hs
    simp at hs
  | cons sess rest ih =>
    intro lastAt e h s hs
    simp only [WF] at h
    obtain ⟨hlb, h2⟩ := h
    rcases List.mem_cons.mp hs with hs | hs
    · subst hs
      exact hlb
    · cases he : sess.«end» with
      | none =>
        simp only [he] at h2
        obtain ⟨hnil, _⟩ := h2
        rw [hnil] at hs
        simp at hs
      | some e1 =>
        simp only [he] at h2
        obtain ⟨hse, _, hrest⟩ := h2
        exact le_trans (le_trans hlb hse) (ih lastAt e1 hrest s hs)

lemma WF_pairwise : ∀ (ss : List Session) (lastAt lb : Option Int),
    WF lastAt lb ss →
    ss.Pairwise (fun a b => a.start ≤ b.start ∧ ∀ e, a.«end» = some e → e ≤ b.start) := by
  intro ss
  induction ss with
  | nil =>
    intro _ _ _
    exact List.Pairwise.nil
  | cons sess rest ih =>
    intro lastAt lb h
    simp only [WF] at h
    obtain ⟨_, h2⟩ := h
    cases he : sess.«end» with
    | none =>
      simp only [he] at h2
      obtain ⟨hnil, _⟩ := h2
      subst hnil
      exact List.pairwise_singleton _ _
    | some e =>
      simp only [he] at h2
      obtain ⟨hse, _, hrest⟩ := h2
      rw [List.pairwise_cons]
      refine ⟨?_, ih lastAt (some e) hrest⟩
      intro b hb
      have hlow := WF_lower rest lastAt e hrest b hb
      refine ⟨le_trans hse hlow, fun e' he' => ?_⟩
      rw [he] at he'
      injection he' with hh
      subst hh
      exact hlow

lemma WF_dropLast_closed : ∀ (ss : List Session) (lastAt lb : Option Int),
    WF lastAt lb ss → ∀ s ∈ ss.dropLast, s.«end» ≠ none := by
  intro ss
  induction ss with
  | nil =>
    intro _ _ _ s hs
    simp at hs
  | cons sess rest ih =>
    intro lastAt lb h s hs
    cases rest with
    | nil => simp at hs
    | cons r rs =>
      simp only [WF] at h
      obtain ⟨_, h2⟩ := h
      cases he : sess.«end» with
      | none =>
        simp only [he] at h2
        obtain ⟨hnil, _⟩ := h2
        simp at hnil
      | some e =>
        simp only [he] at h2
        obtain ⟨_, _, hrest⟩ := h2
        rw [show (sess :: r :: rs).dropLast = sess :: (r :: rs).dropLast from rfl] at hs
        rcases List.mem_cons.mp hs with hs | hs
        · subst hs
          rw [he]
          simp
        · exact ih lastAt (some e) hrest s hs

/-- C2 (amended): after any sequence of store mutations in which every
processed observation's instant is at least the player's current
`lastMatchAt`, the sessions are chronologically ordered by start, pairwise
non-overlapping (each end at most the next start), and only the last session
may be open. -/
theorem C2_sessions_invariant_amended (p : Player) (h : ReachM p) :
    p.sessions.Pairwise
      (fun a b => a.start ≤ b.start ∧ ∀ e, a.«end» = some e → e ≤ b.start) ∧
    ∀ s ∈ p.sessions.dropLast, s.«end» ≠ none :=
  ⟨WF_pairwise p.sessions p.lastMatchAt none (ReachM_WF h),
   WF_dropLast_closed p.sessions p.lastMatchAt none (ReachM_WF h)⟩

/-- The mutation sequence refuting C2 as stated: observations with decreasing
instants (6000000 then 0), an inactivity sweep, then an observation at 3000000. -/
def badPlayer : Player :=
  processObservation
    (closeInactivePlayer 6000000
      (processObservation (processObservation (defaultPlayer "A" "u") "m1" 6000000) "m2" 0))
    "m3" 3000000

/-- Counterexample to C2 as stated: a sequence of the store's mutation
operations (with non-monotone observation instants) yields a session log that
is not chronologically ordered by start. -/
theorem C2_sessions_invariant_cex :
    Reach badPlayer ∧
    badPlayer.sessions = [⟨6000000, some 0⟩, ⟨3000000, none⟩] ∧
    ¬ badPlayer.sessions.Pairwise
        (fun a b => a.start ≤ b.start ∧ ∀ e, a.«end» = some e → e ≤ b.start) := by
  have hbad : badPlayer =
      ⟨"A", "u", some "m3", some 3000000, [⟨6000000, some 0⟩, ⟨3000000, none⟩]⟩ := by
    simp only [badPlayer, closeInactivePlayer_eq]
    decide
  refine ⟨?_, ?_, ?_⟩
  · exact Reach.observe "m3" 3000000 (Reach.close 6000000
      (Reach.observe "m2" 0 (Reach.observe "m1" 6000000 (Reach.init "A" "u"))))
  · rw [hbad]
  · rw [hbad]
    intro hp
    have hc := (List.pairwise_cons.mp hp).1 ⟨3000000, none⟩ (by simp)
    exact absurd hc.1 (by decide)

/-- Witness for C2 (amended) on a concrete monotone history: observe at 1000,
sweep at 9000000 (closing the session at 1000), observe again at 5000. -/
theorem C2_sessions_invariant_witness :
    (processObservation
        (closeInactivePlayer 9000000 (processObservation (defaultPlayer "A" "u") "m1" 1000))
        "m2" 5000).sessions.Pairwise
      (fun a b => a.start ≤ b.start ∧ ∀ e, a.«end» = some e → e ≤ b.start) ∧
    ∀ s ∈ (processObservation
        (closeInactivePlayer 9000000 (processObservation (defaultPlayer "A" "u") "m1" 1000))
        "m2" 5000).sessions.dropLast, s.«end» ≠ none :=
  C2_sessions_invariant_amended _
    (ReachM.observe "m2" 5000
      (ReachM.close 9000000
        (ReachM.observe "m1" 1000 (ReachM.init "A" "u")
          (fun L hL => by simp [defaultPlayer] at hL)))
      (fun L hL => by
        rw [closeInactivePlayer_lastMatchAt] at hL
        simp [processObservation, defaultPlayer] at hL
        omega))

/-! ### C9: persistence round-trip -/

lemma find?_urlmap (ps : List Player) (n n1 u1 : String) (p : Player)
    (h : ps.find? (fun q => q.name == n) = some p) :
    (ps.map (fun q => if q.name == n1 then { q with url := u1 } else q)).find?
        (fun q => q.name == n) =
      some (if p.name == n1 then { p with url := u1 } else p) := by
  induction ps with
  | nil => simp at h
  | cons a t ih =>
    have hname : (if a.name == n1 then { a with url := u1 } else a).name = a.name := by
      split <;> rfl
    by_cases hb : (a.name == n) = true
    · rw [@List.find?_cons_of_pos Player (fun q => q.name == n) a t hb] at h
      injection h with h
      subst h
      rw [List.map_cons,
        @List.find?_cons_of_pos Player (fun q => q.name == n)
          (if a.name == n1 then { a with url := u1 } else a) (List.map _ t)
          (by simp only [hname]; exact hb)]
    · rw [@List.find?_cons_of_neg Player (fun q => q.name == n) a t hb] at h
      rw [List.map_cons,
        @List.find?_cons_of_neg Player (fun q => q.name == n)
          (if a.name == n1 then { a with url := u1 } else a) (List.map _ t)
          (by simp only [hname]; exact hb), ih h]

lemma find?_append_of_some {l₁ l₂ : List Player} {f : Player → Bool} {x : Player}
    (h : l₁.find? f = some x) : (l₁ ++ l₂).find? f = some x := by
  rw [List.find?_append, h]
  rfl

/-- One merge iteration of `loadState` never touches any present player's
`sessions`, `lastMatchId` or `lastMatchAt` (it only refreshes `url` or appends
a default entry for a missing roster member). -/
lemma mergeRosterEntry_find (ps : List Player) (nu : String × String) (n : String)
    (p : Player) (h : ps.find? (fun q => q.name == n) = some p) :
    ∃ q, (mergeRosterEntry ps nu).find? (fun q => q.name == n) = some q ∧
      q.sessions = p.sessions ∧ q.lastMatchId = p.lastMatchId ∧
      q.lastMatchAt = p.lastMatchAt := by
  unfold mergeRosterEntry
  cases hf : ps.find? (fun q => q.name == nu.1) with
  | none => exact ⟨p, find?_append_of_some h, rfl, rfl, rfl⟩
  | some _ =>
    refine ⟨if p.name == nu.1 then { p with url := nu.2 } else p,
      find?_urlmap ps n nu.1 nu.2 p h, ?_, ?_, ?_⟩ <;> split <;> rfl

lemma ensure_foldl_preserves (roster : List (String × String)) :
    ∀ (ps : List Player) (n : String) (p : Player),
      ps.find? (fun q => q.name == n) = some p →
      ∃ q, (roster.foldl mergeRosterEntry ps).find? (fun q => q.name == n) = some q ∧
        q.sessions = p.sessions ∧ q.lastMatchId = p.lastMatchId ∧
        q.lastMatchAt = p.lastMatchAt := by
  induction roster with
  | nil =>
    intro ps n p h
    exact ⟨p, h, rfl, rfl, rfl⟩
  | cons nu rest ih =>
    intro ps n p h
    rw [List.foldl_cons]
    obtain ⟨q, hq, h1, h2, h3⟩ := mergeRosterEntry_find ps nu n p h
    obtain ⟨r, hr, g1, g2, g3⟩ := ih (mergeRosterEntry ps nu) n q hq
    exact ⟨r, hr, by rw [g1, h1], by rw [g2, h2], by rw [g3, h3]⟩

/-- C9: saving the state and loading it back, merged against the configured
roster, reproduces for every rostered player present in the state an
identical `sessions` sequence and identical `lastMatchId`/`lastMatchAt`. -/
theorem C9_round_trip (roster : List (String × String)) (now : Int)
    (s : TrackerState) (n u : String) (_hmem : (n, u) ∈ roster) (p : Player)
    (hfind : s.players.find? (fun q => q.name == n) = some p) :
    ∃ q, (loadStateFrom roster now (some (saveState s))).players.find?
        (fun q => q.name == n) = some q ∧
      q.sessions = p.sessions ∧ q.lastMatchId = p.lastMatchId ∧
      q.lastMatchAt = p.lastMatchAt := by
  simp only [loadStateFrom, saveState]
  exact ensure_foldl_preserves roster s.players n p hfind

/-- Witness for C9 on a one-player roster whose stored entry has sessions,
a `lastMatchId` and a stale `url`. -/
theorem C9_round_trip_witness :
    (("A", "uNew") ∈ [("A", "uNew")]) ∧
    ([⟨"A", "uOld", some "m", some 7, [⟨1, some 2⟩]⟩] : List Player).find?
        (fun q => q.name == "A") = some ⟨"A", "uOld", some "m", some 7, [⟨1, some 2⟩]⟩ ∧
    ∃ q, (loadStateFrom [("A", "uNew")] 0
          (some (saveState ⟨[⟨"A", "uOld", some "m", some 7, [⟨1, some 2⟩]⟩], none, 0⟩))).players.find?
        (fun q => q.name == "A") = some q ∧
      q.sessions = [⟨1, some 2⟩] ∧ q.lastMatchId = some "m" ∧ q.lastMatchAt = some 7 :=
  ⟨by decide, by decide,
    C9_round_trip [("A", "uNew")] 0 ⟨[⟨"A", "uOld", some "m", some 7, [⟨1, some 2⟩]⟩], none, 0⟩
      "A" "uNew" (by decide) ⟨"A", "uOld", some "m", some 7, [⟨1, some 2⟩]⟩ (by decide)⟩

end Tracker
